import Mathlib

/-!
Verification of the chunked transfer engine of `script.py` (a Discord-backed
file store).  Each definition is a shallow embedding of the corresponding
Python function; network responses are supplied as explicit traces, the local
filesystem as a map from names to contents, and remote message history as a
list of messages (newest first, as the remote API returns it).
-/

namespace DiscDrive

/-- Bytes of a file are modelled as natural numbers (one byte value each). -/
abbrev Byte := Nat

/-- `CHUNK_SIZE = 10 * 1024 * 1024` (script.py line 12). -/
def CHUNK_SIZE : Nat := 10 * 1024 * 1024

/-- `MAX_RETRIES = 5` (script.py line 14). -/
def MAX_RETRIES : Nat := 5

/-- `MAX_MESSAGES_TO_FETCH = 100` (script.py line 15). -/
def MAX_MESSAGES_TO_FETCH : Nat := 100

/-! ## Chunker

Both upload paths read the file with `chunk = f.read(CHUNK_SIZE)` in a loop
and stop at the first empty read (script.py lines 30-33 and 86-89).
`f.read(C)` with `C > 0` returns the next `min C remaining` bytes of the
file, i.e. `data.take C`, leaving `data.drop C`; `f.read 0` returns the
empty bytes object, so with `C = 0` the loop stops at once with no chunks. -/

/-- The sequence of chunks produced by the `f.read(CHUNK_SIZE)` loop of
`upload_sync` / `upload_async` on a file whose bytes are `data`. -/
def file_chunks (C : Nat) (data : List Byte) : List (List Byte) :=
  if _h : C = 0 ∨ data = [] then []
  else data.take C :: file_chunks C (data.drop C)
termination_by data.length
decreasing_by
  push_neg at _h
  obtain ⟨hC, hd⟩ := _h
  have h1 : 0 < C := Nat.pos_of_ne_zero hC
  have h2 : 0 < data.length := List.length_pos.mpr hd
  simp only [List.length_drop]
  omega

/-- The `(sequence index, chunk)` pairs as produced by the upload loops: the
part counter starts at 1 and increments once per chunk read
(script.py lines 26, 42 and 82, 91). -/
def uploadParts (C : Nat) (data : List Byte) : List (Nat × List Byte) :=
  (file_chunks C data).enum.map (fun p => (p.1 + 1, p.2))

lemma file_chunks_nil (C : Nat) : file_chunks C [] = [] := by
  rw [file_chunks]
  simp

lemma file_chunks_cons (C : Nat) (data : List Byte) (hC : C ≠ 0) (hd : data ≠ []) :
    file_chunks C data = data.take C :: file_chunks C (data.drop C) := by
  rw [file_chunks]
  simp [hC, hd]

lemma file_chunks_ne_nil (C : Nat) (data : List Byte) (hC : C ≠ 0) (hd : data ≠ []) :
    file_chunks C data ≠ [] := by
  rw [file_chunks_cons C data hC hd]
  simp

lemma drop_ne_nil_of_lt {C : Nat} {data : List Byte} (h : C < data.length) :
    data.drop C ≠ [] := by
  rw [← List.length_pos, List.length_drop]
  omega

/-- Concatenating the chunks in order gives back the original bytes. -/
lemma file_chunks_flatten (C : Nat) (hC : C ≠ 0) (data : List Byte) :
    (file_chunks C data).flatten = data := by
  induction data using file_chunks.induct C with
  | case1 x h =>
    have hx : x = [] := by tauto
    subst hx
    rw [file_chunks_nil]
    rfl
  | case2 x h ih =>
    push_neg at h
    rw [file_chunks_cons C x h.1 h.2]
    simp [ih]

/-- Number of chunks of a non-empty file: `(S - 1) / C + 1`. -/
lemma file_chunks_length (C : Nat) (hC : C ≠ 0) (data : List Byte) :
    data ≠ [] → (file_chunks C data).length = (data.length - 1) / C + 1 := by
  induction data using file_chunks.induct C with
  | case1 x h =>
    intro hx
    rcases h with h | h
    · exact absurd h hC
    · exact absurd h hx
  | case2 x h ih =>
    intro _
    push_neg at h
    obtain ⟨h1, h2⟩ := h
    rw [file_chunks_cons C x h1 h2]
    simp only [List.length_cons]
    by_cases hle : x.length ≤ C
    · have hdrop : x.drop C = [] := List.drop_eq_nil_of_le hle
      rw [hdrop, file_chunks_nil]
      have hx : 0 < x.length := List.length_pos.mpr h2
      have hz : (x.length - 1) / C = 0 := Nat.div_eq_of_lt (by omega)
      simp [hz]
    · push_neg at hle
      have hd2 : x.drop C ≠ [] := drop_ne_nil_of_lt hle
      rw [ih hd2, List.length_drop]
      have hCpos : 0 < C := Nat.pos_of_ne_zero h1
      have hstep : (x.length - 1) / C = (x.length - 1 - C) / C + 1 :=
        Nat.div_eq_sub_div hCpos (by omega)
      have heq : x.length - C - 1 = x.length - 1 - C := by omega
      rw [heq, hstep]

/-- The ceiling formula of the source, `(S + C - 1) // C` (script.py lines
28 and 79), agrees with `(S - 1) / C + 1` for non-empty files. -/
lemma total_parts_eq (S C : Nat) (hS : 0 < S) (hC : 0 < C) :
    (S + C - 1) / C = (S - 1) / C + 1 := by
  have h : S + C - 1 = (S - 1) + C := by omega
  rw [h, Nat.add_div_right _ hC]

/-- Every chunk except possibly the last has exactly `C` bytes. -/
lemma file_chunks_dropLast (C : Nat) (data : List Byte) :
    ∀ p ∈ (file_chunks C data).dropLast, p.length = C := by
  induction data using file_chunks.induct C with
  | case1 x h =>
    rw [file_chunks]
    simp [h]
  | case2 x h ih =>
    push_neg at h
    rw [file_chunks_cons C x h.1 h.2]
    by_cases hd : x.drop C = []
    · rw [hd, file_chunks_nil]
      simp
    · rw [List.dropLast_cons_of_ne_nil (file_chunks_ne_nil C _ h.1 hd)]
      intro p hp
      rcases List.mem_cons.mp hp with rfl | hp
      · have hlt : C < x.length := by
          by_contra hle
          push_neg at hle
          exact hd (List.drop_eq_nil_of_le hle)
        simp only [List.length_take]
        omega
      · exact ih p hp

/-- The last chunk holds the remainder: `C` bytes when the size divides
evenly, `S % C` bytes otherwise. -/
lemma file_chunks_getLast? (C : Nat) (hC : C ≠ 0) (data : List Byte) :
    data ≠ [] → ∃ l, (file_chunks C data).getLast? = some l ∧
      l.length = (if data.length % C = 0 then C else data.length % C) := by
  induction data using file_chunks.induct C with
  | case1 x h =>
    intro hx
    rcases h with h | h
    · exact absurd h hC
    · exact absurd h hx
  | case2 x h ih =>
    intro _
    push_neg at h
    obtain ⟨h1, h2⟩ := h
    rw [file_chunks_cons C x h1 h2]
    by_cases hd : x.drop C = []
    · rw [hd, file_chunks_nil]
      refine ⟨x.take C, rfl, ?_⟩
      have hle : x.length ≤ C := by
        by_contra hlt
        push_neg at hlt
        exact drop_ne_nil_of_lt hlt hd
      have hx : 0 < x.length := List.length_pos.mpr h2
      simp only [List.length_take]
      rcases Nat.lt_or_ge x.length C with hlt | hge
      · have hm : x.length % C = x.length := Nat.mod_eq_of_lt hlt
        rw [if_neg (by omega)]
        omega
      · have hxe : x.length = C := by omega
        rw [hxe]
        simp [Nat.mod_self]
    · obtain ⟨l, hl, hlen⟩ := ih hd
      rcases hfc : file_chunks C (x.drop C) with _ | ⟨b, l'⟩
      · exact absurd hfc (file_chunks_ne_nil C _ h1 hd)
      · rw [hfc] at hl
        refine ⟨l, ?_, ?_⟩
        · rw [List.getLast?_cons_cons, hl]
        · have hlt : C < x.length := by
            by_contra hle
            push_neg at hle
            exact hd (List.drop_eq_nil_of_le hle)
          have hmod : (x.drop C).length % C = x.length % C := by
            rw [List.length_drop]
            conv_rhs => rw [show x.length = (x.length - C) + C by omega]
            rw [Nat.add_mod_right]
          rw [hmod] at hlen
          exact hlen

/-- The 1-based part counter produces exactly the indices `1, 2, ...` in
source order. -/
lemma uploadParts_map_fst (C : Nat) (data : List Byte) :
    (uploadParts C data).map Prod.fst = List.range' 1 (file_chunks C data).length := by
  unfold uploadParts
  rw [List.map_map]
  have h1 : (Prod.fst ∘ fun p : Nat × List Byte => (p.1 + 1, p.2)) =
      ((fun n => n + 1) ∘ Prod.fst) := rfl
  rw [h1, ← List.map_map, List.enum_map_fst, List.range'_eq_map_range]
  simp [Nat.add_comm]

/-- The chunk payloads of `uploadParts` are exactly the chunks, in order. -/
lemma uploadParts_map_snd (C : Nat) (data : List Byte) :
    (uploadParts C data).map Prod.snd = file_chunks C data := by
  unfold uploadParts
  rw [List.map_map]
  have h1 : (Prod.snd ∘ fun p : Nat × List Byte => (p.1 + 1, p.2)) =
      (Prod.snd : Nat × List Byte → List Byte) := rfl
  rw [h1, List.enum_map_snd]

/-- C1: chunking a non-empty file of size `S` with chunk size `C > 0` yields
exactly `⌈S/C⌉ = (S + C - 1) / C` parts, carrying 1-based contiguous indices
in source order; every part except possibly the last has exactly `C` bytes;
the last part holds the non-zero remainder (`C` bytes when `C ∣ S`, so an
exactly-divisible file has no trailing empty part); and concatenating the
parts in ascending index order reproduces the original bytes. -/
theorem chunking_round_trip (C : Nat) (data : List Byte) (hC : 0 < C) (hd : data ≠ []) :
    (file_chunks C data).length = (data.length + C - 1) / C ∧
    (∀ p ∈ (file_chunks C data).dropLast, p.length = C) ∧
    (∀ hne : file_chunks C data ≠ [],
      0 < ((file_chunks C data).getLast hne).length ∧
      (data.length % C = 0 → ((file_chunks C data).getLast hne).length = C) ∧
      (data.length % C ≠ 0 → ((file_chunks C data).getLast hne).length = data.length % C)) ∧
    (file_chunks C data).flatten = data ∧
    (uploadParts C data).map Prod.fst = List.range' 1 ((data.length + C - 1) / C) ∧
    (uploadParts C data).map Prod.snd = file_chunks C data := by
  have hCne : C ≠ 0 := Nat.pos_iff_ne_zero.mp hC
  have hS : 0 < data.length := List.length_pos.mpr hd
  have hlen : (file_chunks C data).length = (data.length + C - 1) / C := by
    rw [file_chunks_length C hCne data hd, total_parts_eq data.length C hS hC]
  refine ⟨hlen, file_chunks_dropLast C data, ?_, file_chunks_flatten C hCne data, ?_, uploadParts_map_snd C data⟩
  · intro hne
    obtain ⟨l, hl, hllen⟩ := file_chunks_getLast? C hCne data hd
    have hgl : (file_chunks C data).getLast hne = l := by
      have := List.getLast?_eq_getLast (file_chunks C data) hne
      rw [this] at hl
      exact Option.some_injective _ hl
    rw [hgl, hllen]
    have hmod : data.length % C < C := Nat.mod_lt _ hC
    refine ⟨?_, ?_, ?_⟩
    · split <;> omega
    · intro hz
      rw [if_pos hz]
    · intro hnz
      rw [if_neg hnz]
  · rw [uploadParts_map_fst, hlen]

/-- Witness for C1 at `C = 2`, `data = [7, 8, 9]`: two parts whose
concatenation is the file, the first of full size. -/
theorem chunking_round_trip_witness :
    (file_chunks 2 [7, 8, 9]).length = (3 + 2 - 1) / 2 ∧
    (file_chunks 2 [7, 8, 9]).flatten = [7, 8, 9] :=
  ⟨(chunking_round_trip 2 [7, 8, 9] (by decide) (by decide)).1,
   (chunking_round_trip 2 [7, 8, 9] (by decide) (by decide)).2.2.2.1⟩

/-! ## Base-name derivation

`clean_filename_part` (script.py lines 17-18) is
`re.sub(r"\.part\d+$", "", filename)`.  The pattern is anchored at the end,
so a match is a decomposition `filename = base ++ ".part" ++ ds` with `ds` a
non-empty digit run reaching the end of the name.  Such a decomposition is
unique when it exists: a second candidate start inside the first match would
have to begin with `'.'`, but every later character of the match is one of
`p a r t` or a digit.  Hence the matched digit run is exactly the maximal
trailing digit run, and the substitution fires exactly when that run is
non-empty and preceded by the five characters `".part"`.  Names are
`List Char`; `\d` is modelled as the decimal digits `0-9` (the claims only
concern decimal indices). -/

/-- The model of `clean_filename_part` (script.py lines 17-18), working from
the reversed name: strip the maximal trailing digit run plus a `".part"`
immediately before it, if both are present; otherwise return the name. -/
def clean_filename_part (s : List Char) : List Char :=
  if (s.reverse.takeWhile Char.isDigit ≠ [] ∧
      (s.reverse.drop (s.reverse.takeWhile Char.isDigit).length).take 5 =
        ['t', 'r', 'a', 'p', '.'])
  then (s.reverse.drop ((s.reverse.takeWhile Char.isDigit).length + 5)).reverse
  else s

/-- Decimal value of a digit string, as Python's `int()` computes it. -/
def digitsVal (ds : List Char) : Nat :=
  ds.foldl (fun n c => 10 * n + (c.toNat - 48)) 0

/-- The sort key of `download_file` (script.py line 158):
`int(re.search(r"\.part(\d+)$", name).group(1))` when the name ends in a
`.part<digits>` suffix, else `0`. -/
def part_sort_key (s : List Char) : Nat :=
  if (s.reverse.takeWhile Char.isDigit ≠ [] ∧
      (s.reverse.drop (s.reverse.takeWhile Char.isDigit).length).take 5 =
        ['t', 'r', 'a', 'p', '.'])
  then digitsVal (s.reverse.takeWhile Char.isDigit).reverse
  else 0

/-- `s` ends in a `.part<digits>` suffix; this is exactly the condition for
the anchored pattern `\.part\d+$` to match in `s`. -/
def HasPartSuffix (s : List Char) : Prop :=
  ∃ b ds, ds ≠ [] ∧ (∀ c ∈ ds, c.isDigit = true) ∧
    s = b ++ ['.', 'p', 'a', 'r', 't'] ++ ds

lemma takeWhile_append_all {p : Char → Bool} {xs ys : List Char}
    (h : ∀ x ∈ xs, p x = true) :
    (xs ++ ys).takeWhile p = xs ++ ys.takeWhile p := by
  induction xs with
  | nil => rfl
  | cons a l ih =>
    simp only [List.cons_append, List.takeWhile_cons]
    rw [if_pos (h a (by simp)), ih (fun x hx => h x (by simp [hx]))]

lemma take_takeWhile_length (p : Char → Bool) (l : List Char) :
    l.take (l.takeWhile p).length = l.takeWhile p := by
  induction l with
  | nil => rfl
  | cons a t ih =>
    rw [List.takeWhile_cons]
    by_cases h : p a
    · rw [if_pos h]
      simp [List.take_succ_cons, ih, List.takeWhile_cons, h]
    · rw [if_neg h]
      rfl

lemma takeWhile_append_drop_self (p : Char → Bool) (l : List Char) :
    l.takeWhile p ++ l.drop (l.takeWhile p).length = l := by
  conv_rhs => rw [← List.take_append_drop (l.takeWhile p).length l]
  rw [take_takeWhile_length]

lemma mem_takeWhile_isTrue (p : Char → Bool) (l : List Char) :
    ∀ x ∈ l.takeWhile p, p x = true := by
  induction l with
  | nil => intro x hx; cases hx
  | cons a t ih =>
    intro x hx
    rw [List.takeWhile_cons] at hx
    by_cases h : p a
    · rw [if_pos h] at hx
      rcases List.mem_cons.mp hx with rfl | hx
      · exact h
      · exact ih x hx
    · rw [if_neg h] at hx
      cases hx

/-- On a suffixed name the substitution strips exactly the suffix, and the
sort key reads exactly its digits. -/
lemma clean_on_suffixed (b ds : List Char) (hne : ds ≠ [])
    (hdig : ∀ c ∈ ds, c.isDigit = true) :
    clean_filename_part (b ++ ['.', 'p', 'a', 'r', 't'] ++ ds) = b ∧
    part_sort_key (b ++ ['.', 'p', 'a', 'r', 't'] ++ ds) = digitsVal ds := by
  set s := b ++ ['.', 'p', 'a', 'r', 't'] ++ ds with hs
  have hrev : s.reverse = ds.reverse ++ (['t', 'r', 'a', 'p', '.'] ++ b.reverse) := by
    simp [hs, List.reverse_append, List.append_assoc]
  have ht : ('t' : Char).isDigit = false := by decide
  have htw : s.reverse.takeWhile Char.isDigit = ds.reverse := by
    rw [hrev, takeWhile_append_all (fun x hx => hdig x (List.mem_reverse.mp hx))]
    simp [List.cons_append, List.takeWhile_cons, ht]
  have hlen5 : (['t', 'r', 'a', 'p', '.'] : List Char).length = 5 := rfl
  have hdrop : s.reverse.drop (s.reverse.takeWhile Char.isDigit).length =
      ['t', 'r', 'a', 'p', '.'] ++ b.reverse := by
    rw [htw, hrev]
    exact List.drop_left ds.reverse _
  have hcond : s.reverse.takeWhile Char.isDigit ≠ [] ∧
      (s.reverse.drop (s.reverse.takeWhile Char.isDigit).length).take 5 =
        ['t', 'r', 'a', 'p', '.'] := by
    constructor
    · rw [htw]
      simpa using hne
    · rw [hdrop, ← hlen5]
      exact List.take_left _ _
  constructor
  · rw [clean_filename_part, if_pos hcond, htw]
    have hsplit : s.reverse = (ds.reverse ++ ['t', 'r', 'a', 'p', '.']) ++ b.reverse := by
      rw [hrev, List.append_assoc]
    have hlen : ds.reverse.length + 5 = (ds.reverse ++ ['t', 'r', 'a', 'p', '.']).length := by
      simp
    rw [hsplit, hlen, List.drop_left, List.reverse_reverse]
  · rw [part_sort_key, if_pos hcond, htw, List.reverse_reverse]

/-- If the substitution fires on `s` then `s` really ends in a
`.part<digits>` suffix. -/
lemma cond_hasPartSuffix (s : List Char)
    (hcond : s.reverse.takeWhile Char.isDigit ≠ [] ∧
      (s.reverse.drop (s.reverse.takeWhile Char.isDigit).length).take 5 =
        ['t', 'r', 'a', 'p', '.']) :
    HasPartSuffix s := by
  obtain ⟨hne, htake⟩ := hcond
  have hdig : ∀ c ∈ s.reverse.takeWhile Char.isDigit, c.isDigit = true :=
    mem_takeWhile_isTrue Char.isDigit s.reverse
  generalize hds : s.reverse.takeWhile Char.isDigit = ds at hne htake hdig
  have h1 : s.reverse = ds ++ s.reverse.drop ds.length := by
    rw [← hds]
    exact (takeWhile_append_drop_self Char.isDigit s.reverse).symm
  have h2 : s.reverse.drop ds.length =
      ['t', 'r', 'a', 'p', '.'] ++ (s.reverse.drop ds.length).drop 5 := by
    conv_lhs => rw [← List.take_append_drop 5 (s.reverse.drop ds.length)]
    rw [htake]
  have h3 : s.reverse =
      ds ++ (['t', 'r', 'a', 'p', '.'] ++ (s.reverse.drop ds.length).drop 5) := by
    rw [← h2]
    exact h1
  refine ⟨((s.reverse.drop ds.length).drop 5).reverse, ds.reverse, by simpa using hne,
    (fun c hc => hdig c (List.mem_reverse.mp hc)), ?_⟩
  have h4 := congrArg List.reverse h3
  rw [List.reverse_reverse] at h4
  rw [h4]
  simp [List.reverse_append, List.append_assoc]

/-- A name with no trailing `.part<digits>` suffix is left untouched. -/
lemma clean_on_plain (s : List Char) (h : ¬ HasPartSuffix s) :
    clean_filename_part s = s := by
  rw [clean_filename_part]
  by_cases hcond : (s.reverse.takeWhile Char.isDigit ≠ [] ∧
      (s.reverse.drop (s.reverse.takeWhile Char.isDigit).length).take 5 =
        ['t', 'r', 'a', 'p', '.'])
  · exact absurd (cond_hasPartSuffix s hcond) h
  · rw [if_neg hcond]

/-- C2: suffix-stripping leaves a name with no trailing `.part<digits>`
suffix unchanged; on `B ++ ".part" ++ ds` (`ds` a non-empty digit string of
value `N ≥ 1`) it returns `B` and the extracted index is `N`; and exactly
one trailing suffix is stripped: a doubly-suffixed name keeps its first
suffix. -/
theorem clean_filename_part_spec :
    (∀ s : List Char, ¬ HasPartSuffix s → clean_filename_part s = s) ∧
    (∀ b ds : List Char, ds ≠ [] → (∀ c ∈ ds, c.isDigit = true) →
      1 ≤ digitsVal ds →
      clean_filename_part (b ++ ['.', 'p', 'a', 'r', 't'] ++ ds) = b ∧
      part_sort_key (b ++ ['.', 'p', 'a', 'r', 't'] ++ ds) = digitsVal ds) ∧
    (∀ b ds1 ds2 : List Char, ds1 ≠ [] → ds2 ≠ [] →
      (∀ c ∈ ds1, c.isDigit = true) → (∀ c ∈ ds2, c.isDigit = true) →
      clean_filename_part
          (b ++ ['.', 'p', 'a', 'r', 't'] ++ ds1 ++ ['.', 'p', 'a', 'r', 't'] ++ ds2) =
        b ++ ['.', 'p', 'a', 'r', 't'] ++ ds1) := by
  refine ⟨clean_on_plain, ?_, ?_⟩
  · intro b ds hne hdig _
    exact clean_on_suffixed b ds hne hdig
  · intro b ds1 ds2 _ hne2 _ hdig2
    exact (clean_on_suffixed (b ++ ['.', 'p', 'a', 'r', 't'] ++ ds1) ds2 hne2 hdig2).1

/-- Witness for C2: `"a"` has no suffix and is unchanged; `"a.part7"` strips
to `"a"` with extracted index `7`; `"a.part1.part7"` strips to `"a.part1"`. -/
theorem clean_filename_part_spec_witness :
    clean_filename_part ['a'] = ['a'] ∧
    clean_filename_part ['a', '.', 'p', 'a', 'r', 't', '7'] = ['a'] ∧
    part_sort_key ['a', '.', 'p', 'a', 'r', 't', '7'] = 7 ∧
    clean_filename_part ['a', '.', 'p', 'a', 'r', 't', '1', '.', 'p', 'a', 'r', 't', '7'] =
      ['a', '.', 'p', 'a', 'r', 't', '1'] := by
  have hno : ¬ HasPartSuffix ['a'] := by
    rintro ⟨b, ds, hne, -, heq⟩
    have hlen := congrArg List.length heq
    have hds : 0 < ds.length := List.length_pos.mpr hne
    simp at hlen
    omega
  have h1 := clean_filename_part_spec.1 ['a'] hno
  have h2 := clean_filename_part_spec.2.1 ['a'] ['7'] (by decide) (by decide) (by decide)
  have h3 := clean_filename_part_spec.2.2 ['a'] ['1'] ['7'] (by decide) (by decide)
    (by decide) (by decide)
  refine ⟨h1, ?_, ?_, ?_⟩
  · have := h2.1
    simpa using this
  · have := h2.2
    simpa using this
  · simpa using h3

/-! ## Remote transfer client: part upload

`upload_chunk` (script.py lines 44-72) retries on 429 with a backoff read
from the response body, up to `MAX_RETRIES` POSTs in total, while
`upload_sync` (script.py lines 30-42) issues exactly one POST per chunk and
breaks out of its loop on any non-200 status, 429 included. -/

/-- One HTTP response to a part-upload POST (script.py lines 54-71): 200,
429 carrying an optional parsed `retry_after` (`none` models a body missing
the key or failing to parse — both leave the 0.5 s default of line 59 in
place, since lines 60-64 swallow the exception), or any other status with
its body text. -/
inductive UploadResp where
  | ok
  | rate (retryAfter : Option ℚ)
  | err (status : Nat) (body : List Char)

/-- Terminal state of one chunk upload in the concurrent path. -/
inductive UploadOutcome where
  | uploaded
  | remoteError (status : Nat) (body : List Char)
  | transferFailed
deriving DecidableEq

/-- The `while retry_count < MAX_RETRIES` loop of `upload_chunk` (script.py
lines 51-72) against a trace `resps` giving the response to the `n`-th POST
for this part (the loop counter equals the index of the POST being made).
Returns the terminal outcome, the total number of POSTs issued, and the
sleeps performed, in seconds and in order. -/
def upload_chunk_go (resps : Nat → UploadResp) (retry_count : Nat) :
    UploadOutcome × Nat × List ℚ :=
  if _h : retry_count < MAX_RETRIES then
    match resps retry_count with
    | .ok => (.uploaded, retry_count + 1, [])
    | .rate ra =>
      let r := upload_chunk_go resps (retry_count + 1)
      (r.1, r.2.1, ra.getD (1 / 2) :: r.2.2)
    | .err s b => (.remoteError s b, retry_count + 1, [])
  else (.transferFailed, retry_count, [])
termination_by MAX_RETRIES - retry_count
decreasing_by omega

/-- A whole `upload_chunk` call starts with `retry_count = 0`. -/
def upload_chunk_run (resps : Nat → UploadResp) : UploadOutcome × Nat × List ℚ :=
  upload_chunk_go resps 0

lemma upload_chunk_go_ok {resps : Nat → UploadResp} {rc : Nat}
    (hrc : rc < MAX_RETRIES) (h : resps rc = .ok) :
    upload_chunk_go resps rc = (.uploaded, rc + 1, []) := by
  rw [upload_chunk_go, dif_pos hrc, h]

lemma upload_chunk_go_rate {resps : Nat → UploadResp} {rc : Nat}
    (hrc : rc < MAX_RETRIES) {ra : Option ℚ} (h : resps rc = .rate ra) :
    upload_chunk_go resps rc =
      ((upload_chunk_go resps (rc + 1)).1, (upload_chunk_go resps (rc + 1)).2.1,
        ra.getD (1 / 2) :: (upload_chunk_go resps (rc + 1)).2.2) := by
  rw [upload_chunk_go, dif_pos hrc, h]

lemma upload_chunk_go_err {resps : Nat → UploadResp} {rc : Nat}
    (hrc : rc < MAX_RETRIES) {s : Nat} {b : List Char} (h : resps rc = .err s b) :
    upload_chunk_go resps rc = (.remoteError s b, rc + 1, []) := by
  rw [upload_chunk_go, dif_pos hrc, h]

lemma upload_chunk_go_stop {resps : Nat → UploadResp} {rc : Nat}
    (hrc : ¬ rc < MAX_RETRIES) :
    upload_chunk_go resps rc = (.transferFailed, rc, []) := by
  rw [upload_chunk_go, dif_neg hrc]

/-- The loop never issues more than `MAX_RETRIES` POSTs. -/
lemma upload_chunk_go_attempts_le (resps : Nat → UploadResp) :
    ∀ fuel rc, MAX_RETRIES - rc ≤ fuel → rc ≤ MAX_RETRIES →
      (upload_chunk_go resps rc).2.1 ≤ MAX_RETRIES := by
  intro fuel
  induction fuel with
  | zero =>
    intro rc hf hrc
    rw [upload_chunk_go_stop (by omega)]
    simpa using hrc
  | succ n ih =>
    intro rc hf hrc
    by_cases hlt : rc < MAX_RETRIES
    · cases hresp : resps rc with
      | ok => rw [upload_chunk_go_ok hlt hresp]; simp; omega
      | rate ra =>
        rw [upload_chunk_go_rate hlt hresp]
        exact ih (rc + 1) (by omega) (by omega)
      | err s b => rw [upload_chunk_go_err hlt hresp]; simp; omega
    · rw [upload_chunk_go_stop hlt]
      simpa using hrc

/-- Five consecutive 429s exhaust the ceiling: the part fails and exactly
`MAX_RETRIES` POSTs were made, whatever the trace holds afterwards. -/
lemma upload_chunk_ceiling (resps : Nat → UploadResp)
    (h : ∀ i < MAX_RETRIES, ∃ ra, resps i = UploadResp.rate ra) :
    (upload_chunk_run resps).1 = .transferFailed ∧
    (upload_chunk_run resps).2.1 = MAX_RETRIES := by
  obtain ⟨r0, h0⟩ := h 0 (by norm_num [MAX_RETRIES])
  obtain ⟨r1, h1⟩ := h 1 (by norm_num [MAX_RETRIES])
  obtain ⟨r2, h2⟩ := h 2 (by norm_num [MAX_RETRIES])
  obtain ⟨r3, h3⟩ := h 3 (by norm_num [MAX_RETRIES])
  obtain ⟨r4, h4⟩ := h 4 (by norm_num [MAX_RETRIES])
  have five : MAX_RETRIES = 5 := rfl
  rw [upload_chunk_run,
    upload_chunk_go_rate (by omega) h0,
    upload_chunk_go_rate (by omega) h1,
    upload_chunk_go_rate (by omega) h2,
    upload_chunk_go_rate (by omega) h3,
    upload_chunk_go_rate (by omega) h4,
    upload_chunk_go_stop (by omega)]
  exact ⟨rfl, five.symm⟩

/-- The serial upload loop of `upload_sync` (script.py lines 30-42): one
POST per chunk, `resps k` being the status code of the `k`-th POST overall;
on 200 the loop advances, on any other status it reports and breaks.
Returns the number of chunks uploaded and the number of POSTs issued. -/
def upload_sync_go (chunks : List (List Byte)) (resps : Nat → Nat) (k : Nat) : Nat × Nat :=
  match chunks with
  | [] => (0, 0)
  | _ :: rest =>
    if resps k = 200 then
      ((upload_sync_go rest resps (k + 1)).1 + 1, (upload_sync_go rest resps (k + 1)).2 + 1)
    else (0, 1)

/-- A whole `upload_sync` call: chunk the file, then run the serial loop. -/
def upload_sync_run (C : Nat) (data : List Byte) (resps : Nat → Nat) : Nat × Nat :=
  upload_sync_go (file_chunks C data) resps 0

/-- Counterexample to C3 as stated: in the serial upload path a 429 does not
cause a retry.  Uploading the one-chunk file `[0]` with every POST answered
429 uploads nothing and issues exactly one POST — the loop breaks at once
(script.py lines 39-41), with no sleep and no second attempt for the part. -/
theorem upload_sync_429_no_retry :
    upload_sync_run 1 [0] (fun _ => 429) = (0, 1) := by
  have hc : file_chunks 1 [0] = [[0]] := by
    rw [file_chunks_cons 1 [0] (by omega) (by simp)]
    simp [file_chunks_nil]
  rw [upload_sync_run, hc, upload_sync_go]
  norm_num

/-- C3 (amended): the retry policy holds in the concurrent path only.  There
`upload_chunk` reads the retry-after delay from a 429 body (0.5 s when absent
or unparseable), sleeps it, and retries, with at most 5 POSTs in total; five
consecutive 429s end in `transferFailed` with no sixth POST, and any other
non-200 status fails the part immediately, surfacing status and body, with
exactly one POST and no sleep.  In the serial path any non-200 response —
429 included — aborts the upload immediately without any retry. -/
theorem upload_retry_policy :
    (∀ (resps : Nat → UploadResp) (t : ℚ), resps 0 = .rate (some t) → resps 1 = .ok →
      upload_chunk_run resps = (.uploaded, 2, [t])) ∧
    (∀ resps : Nat → UploadResp, resps 0 = .rate none → resps 1 = .ok →
      upload_chunk_run resps = (.uploaded, 2, [1 / 2])) ∧
    (∀ (resps : Nat → UploadResp) (s : Nat) (b : List Char), resps 0 = .err s b →
      upload_chunk_run resps = (.remoteError s b, 1, [])) ∧
    (∀ resps : Nat → UploadResp, (∀ i < MAX_RETRIES, ∃ ra, resps i = .rate ra) →
      (upload_chunk_run resps).1 = .transferFailed ∧
      (upload_chunk_run resps).2.1 = MAX_RETRIES) ∧
    (∀ resps : Nat → UploadResp, (upload_chunk_run resps).2.1 ≤ MAX_RETRIES) ∧
    (∀ (chunks : List (List Byte)) (resps : Nat → Nat) (k : Nat),
      chunks ≠ [] → resps k ≠ 200 → upload_sync_go chunks resps k = (0, 1)) := by
  refine ⟨?_, ?_, ?_, upload_chunk_ceiling, ?_, ?_⟩
  · intro resps t h0 h1
    rw [upload_chunk_run, upload_chunk_go_rate (by norm_num [MAX_RETRIES]) h0,
      upload_chunk_go_ok (by norm_num [MAX_RETRIES]) h1]
    simp
  · intro resps h0 h1
    rw [upload_chunk_run, upload_chunk_go_rate (by norm_num [MAX_RETRIES]) h0,
      upload_chunk_go_ok (by norm_num [MAX_RETRIES]) h1]
    simp
  · intro resps s b h0
    rw [upload_chunk_run, upload_chunk_go_err (by norm_num [MAX_RETRIES]) h0]
  · intro resps
    exact upload_chunk_go_attempts_le resps MAX_RETRIES 0 (by omega) (by omega)
  · intro chunks resps k hne h200
    cases chunks with
    | nil => exact absurd rfl hne
    | cons c rest =>
      rw [upload_sync_go, if_neg h200]

/-- Witness for the amended C3 at the spec's own example: a single 429 with
`retry_after = 0.1` followed by a 200 uploads the part on the second POST
after exactly one 0.1 s sleep; and a first response of status 403 fails at
once with one POST. -/
theorem upload_retry_policy_witness :
    upload_chunk_run
        (fun n => if n = 0 then .rate (some (1 / 10)) else .ok) =
      (.uploaded, 2, [1 / 10]) ∧
    upload_chunk_run (fun _ => .err 403 ['n', 'o']) =
      (.remoteError 403 ['n', 'o'], 1, []) := by
  constructor
  · exact upload_retry_policy.1 (fun n => if n = 0 then .rate (some (1 / 10)) else .ok)
      (1 / 10) rfl rfl
  · exact upload_retry_policy.2.2.1 (fun _ => .err 403 ['n', 'o']) 403 ['n', 'o'] rfl

/-! ## Remote transfer client: message delete

`delete_file` (script.py lines 173-212) deletes each located message in a
retry loop of its own.  Unlike the upload path, the 429 branch calls
`await resp.json()` with no try/except (line 199), so a 429 whose body is
not valid JSON raises out of the whole operation; and the default delay is
`j.get("retry_after", 1)` — one second (line 200). -/

/-- One HTTP response to a message DELETE (script.py lines 193-207): 204;
429 with its body, where `none` models a body that is not valid JSON (on
which `await resp.json()` raises), `some none` a JSON body without the
`retry_after` key, and `some (some t)` a body carrying `retry_after = t`;
or any other status with its body text. -/
inductive DeleteResp where
  | noContent
  | rate (body : Option (Option ℚ))
  | err (status : Nat) (body : List Char)

/-- Terminal state of the retry loop for one message.  `crashed` is the
uncaught exception from `await resp.json()` on a non-JSON 429 body. -/
inductive DeleteOutcome where
  | deleted
  | failed (status : Nat) (body : List Char)
  | ceiling
  | crashed
deriving DecidableEq

/-- The `while retry_count < MAX_RETRIES` loop for one message id (script.py
lines 191-210) against a trace of responses to successive DELETEs.  Returns
the terminal outcome and the sleeps performed; the `while`-`else` clause
(ceiling exhausted without a `break`) yields `ceiling`. -/
def delete_message_go (resps : Nat → DeleteResp) (retry_count : Nat) :
    DeleteOutcome × List ℚ :=
  if _h : retry_count < MAX_RETRIES then
    match resps retry_count with
    | .noContent => (.deleted, [])
    | .rate none => (.crashed, [])
    | .rate (some ra) =>
      let r := delete_message_go resps (retry_count + 1)
      (r.1, ra.getD 1 :: r.2)
    | .err s b => (.failed s b, [])
  else (.ceiling, [])
termination_by MAX_RETRIES - retry_count
decreasing_by omega

/-- The retry loop for one message starts with `retry_count = 0`. -/
def delete_message_run (resps : Nat → DeleteResp) : DeleteOutcome × List ℚ :=
  delete_message_go resps 0

lemma delete_message_go_ok {resps : Nat → DeleteResp} {rc : Nat}
    (hrc : rc < MAX_RETRIES) (h : resps rc = .noContent) :
    delete_message_go resps rc = (.deleted, []) := by
  rw [delete_message_go, dif_pos hrc, h]

lemma delete_message_go_badJson {resps : Nat → DeleteResp} {rc : Nat}
    (hrc : rc < MAX_RETRIES) (h : resps rc = .rate none) :
    delete_message_go resps rc = (.crashed, []) := by
  rw [delete_message_go, dif_pos hrc, h]

lemma delete_message_go_rate {resps : Nat → DeleteResp} {rc : Nat}
    (hrc : rc < MAX_RETRIES) {ra : Option ℚ} (h : resps rc = .rate (some ra)) :
    delete_message_go resps rc =
      ((delete_message_go resps (rc + 1)).1,
        ra.getD 1 :: (delete_message_go resps (rc + 1)).2) := by
  rw [delete_message_go, dif_pos hrc, h]

lemma delete_message_go_err {resps : Nat → DeleteResp} {rc : Nat}
    (hrc : rc < MAX_RETRIES) {s : Nat} {b : List Char} (h : resps rc = .err s b) :
    delete_message_go resps rc = (.failed s b, []) := by
  rw [delete_message_go, dif_pos hrc, h]

lemma delete_message_go_stop {resps : Nat → DeleteResp} {rc : Nat}
    (hrc : ¬ rc < MAX_RETRIES) :
    delete_message_go resps rc = (.ceiling, []) := by
  rw [delete_message_go, dif_neg hrc]

/-- A trace whose 429 bodies are all valid JSON never crashes the loop. -/
lemma delete_message_go_no_crash (resps : Nat → DeleteResp)
    (hjson : ∀ n, resps n ≠ .rate none) :
    ∀ fuel rc, MAX_RETRIES - rc ≤ fuel →
      (delete_message_go resps rc).1 ≠ DeleteOutcome.crashed := by
  intro fuel
  induction fuel with
  | zero =>
    intro rc hf
    rw [delete_message_go_stop (by omega)]
    simp
  | succ n ih =>
    intro rc hf
    by_cases hlt : rc < MAX_RETRIES
    · cases hresp : resps rc with
      | noContent => rw [delete_message_go_ok hlt hresp]; simp
      | rate body =>
        cases body with
        | none => exact absurd hresp (hjson rc)
        | some ra =>
          rw [delete_message_go_rate hlt hresp]
          exact ih (rc + 1) (by omega)
      | err s b => rw [delete_message_go_err hlt hresp]; simp
    · rw [delete_message_go_stop hlt]
      simp

/-- The per-file delete loop (script.py lines 189-212): sequential over the
located message ids, each with its own response trace.  A `break` (204 or
other error status) or the `while`-`else` (ceiling) moves on to the next id;
an uncaught exception aborts the whole loop, so no count is reported.
Returns `some` of the final `deleted_count` (204s only) when the loop
completes, `none` on a crash, paired with the outcomes reached in order. -/
def delete_file_go (msgs : List (Nat → DeleteResp)) : Option Nat × List DeleteOutcome :=
  match msgs with
  | [] => (some 0, [])
  | m :: rest =>
    if (delete_message_run m).1 = DeleteOutcome.crashed then
      (none, [(delete_message_run m).1])
    else
      match delete_file_go rest with
      | (none, os) => (none, (delete_message_run m).1 :: os)
      | (some c, os) =>
        (some ((if (delete_message_run m).1 = DeleteOutcome.deleted then 1 else 0) + c),
          (delete_message_run m).1 :: os)

/-- Counterexample to C4 as stated: a 429 whose body is not valid JSON
crashes the delete retry loop instead of falling back to a default delay;
and when the body is JSON without a `retry_after` key, the fallback delay
actually slept is 1 second, not the claimed 0.5 seconds. -/
theorem delete_retry_cex :
    (delete_message_run (fun _ => .rate none)).1 = DeleteOutcome.crashed ∧
    (delete_message_run (fun n => if n = 0 then .rate (some none) else .noContent)).2 =
      [1] ∧
    (1 : ℚ) ≠ 1 / 2 := by
  refine ⟨?_, ?_, by norm_num⟩
  · rw [delete_message_run, delete_message_go_badJson (by norm_num [MAX_RETRIES]) rfl]
  · rw [delete_message_run, delete_message_go_rate (by norm_num [MAX_RETRIES]) rfl,
      delete_message_go_ok (by norm_num [MAX_RETRIES]) rfl]
    rfl

/-- C4 (amended): a 204 deletes the message at once; a 429 whose body is
valid JSON is retried after `retry_after` seconds, defaulting to 1 second
when the key is absent, up to the same ceiling of 5 attempts as upload;
but a 429 whose body fails JSON parsing raises an uncaught exception out of
the retry loop (there is no try/except around `await resp.json()`). -/
theorem delete_retry_policy :
    (∀ resps : Nat → DeleteResp, resps 0 = .noContent →
      delete_message_run resps = (.deleted, [])) ∧
    (∀ (resps : Nat → DeleteResp) (t : ℚ), resps 0 = .rate (some (some t)) →
      resps 1 = .noContent → delete_message_run resps = (.deleted, [t])) ∧
    (∀ resps : Nat → DeleteResp, resps 0 = .rate (some none) → resps 1 = .noContent →
      delete_message_run resps = (.deleted, [1])) ∧
    (∀ resps : Nat → DeleteResp, (∀ i < MAX_RETRIES, ∃ ra, resps i = .rate (some ra)) →
      (delete_message_run resps).1 = DeleteOutcome.ceiling) ∧
    (∀ resps : Nat → DeleteResp, resps 0 = .rate none →
      (delete_message_run resps).1 = DeleteOutcome.crashed) := by
  refine ⟨?_, ?_, ?_, ?_, ?_⟩
  · intro resps h0
    rw [delete_message_run, delete_message_go_ok (by norm_num [MAX_RETRIES]) h0]
  · intro resps t h0 h1
    rw [delete_message_run, delete_message_go_rate (by norm_num [MAX_RETRIES]) h0,
      delete_message_go_ok (by norm_num [MAX_RETRIES]) h1]
    simp
  · intro resps h0 h1
    rw [delete_message_run, delete_message_go_rate (by norm_num [MAX_RETRIES]) h0,
      delete_message_go_ok (by norm_num [MAX_RETRIES]) h1]
    rfl
  · intro resps h
    obtain ⟨r0, h0⟩ := h 0 (by norm_num [MAX_RETRIES])
    obtain ⟨r1, h1⟩ := h 1 (by norm_num [MAX_RETRIES])
    obtain ⟨r2, h2⟩ := h 2 (by norm_num [MAX_RETRIES])
    obtain ⟨r3, h3⟩ := h 3 (by norm_num [MAX_RETRIES])
    obtain ⟨r4, h4⟩ := h 4 (by norm_num [MAX_RETRIES])
    have five : MAX_RETRIES = 5 := rfl
    rw [delete_message_run,
      delete_message_go_rate (by omega) h0,
      delete_message_go_rate (by omega) h1,
      delete_message_go_rate (by omega) h2,
      delete_message_go_rate (by omega) h3,
      delete_message_go_rate (by omega) h4,
      delete_message_go_stop (by omega)]
  · intro resps h0
    rw [delete_message_run, delete_message_go_badJson (by norm_num [MAX_RETRIES]) h0]

/-- Witness for the amended C4: an immediate 204 deletes; a keyless-JSON 429
then a 204 deletes after a single 1 s sleep. -/
theorem delete_retry_policy_witness :
    delete_message_run (fun _ => .noContent) = (.deleted, []) ∧
    delete_message_run (fun n => if n = 0 then .rate (some none) else .noContent) =
      (.deleted, [1]) := by
  constructor
  · exact delete_retry_policy.1 (fun _ => .noContent) rfl
  · exact delete_retry_policy.2.2.1
      (fun n => if n = 0 then .rate (some none) else .noContent) rfl rfl

/-- C6: when every 429 body in the traces is valid JSON (so the loop cannot
crash), the delete loop attempts every message id in order — one outcome per
id, later ids still attempted after a terminal failure on an earlier one —
and the reported count is exactly the number of deletes that reached 204. -/
theorem delete_loop_aggregate (msgs : List (Nat → DeleteResp))
    (hjson : ∀ m ∈ msgs, ∀ n, m n ≠ DeleteResp.rate none) :
    delete_file_go msgs =
      (some ((msgs.map (fun m => (delete_message_run m).1)).count DeleteOutcome.deleted),
        msgs.map (fun m => (delete_message_run m).1)) := by
  induction msgs with
  | nil => rfl
  | cons m rest ih =>
    have hm : (delete_message_run m).1 ≠ DeleteOutcome.crashed :=
      delete_message_go_no_crash m (hjson m (by simp)) MAX_RETRIES 0 (by omega)
    have hrest := ih (fun m' hm' n => hjson m' (by simp [hm']) n)
    rw [delete_file_go, if_neg hm, hrest]
    simp only [List.map_cons, List.count_cons]
    congr 1
    have : (DeleteOutcome.deleted == (delete_message_run m).1) =
        ((delete_message_run m).1 == DeleteOutcome.deleted) := by
      rcases h : (delete_message_run m).1 <;> simp [beq_iff_eq, eq_comm]
    by_cases hdel : (delete_message_run m).1 = DeleteOutcome.deleted
    · simp [hdel]
      omega
    · simp [hdel]

/-- Witness for C6: three messages — 204, then a terminal 403, then 204 —
give outcomes for all three and a reported count of 2. -/
theorem delete_loop_aggregate_witness :
    delete_file_go
        [fun _ => DeleteResp.noContent,
         fun _ => DeleteResp.err 403 ['x'],
         fun _ => DeleteResp.noContent] =
      (some 2, [DeleteOutcome.deleted, DeleteOutcome.failed 403 ['x'],
        DeleteOutcome.deleted]) := by
  have h := delete_loop_aggregate
    [fun _ => DeleteResp.noContent,
     fun _ => DeleteResp.err 403 ['x'],
     fun _ => DeleteResp.noContent]
    (by
      intro m hm n
      rcases List.mem_cons.mp hm with rfl | hm
      · simp
      rcases List.mem_cons.mp hm with rfl | hm
      · simp
      rcases List.mem_cons.mp hm with rfl | hm
      · simp
      · cases hm)
  rw [h]
  have h204 : delete_message_run (fun _ => DeleteResp.noContent) = (.deleted, []) := by
    rw [delete_message_run, delete_message_go_ok (by norm_num [MAX_RETRIES]) rfl]
  have h403 : delete_message_run (fun _ => DeleteResp.err 403 ['x']) =
      (.failed 403 ['x'], []) := by
    rw [delete_message_run, delete_message_go_err (by norm_num [MAX_RETRIES]) rfl]
  simp [h204, h403]

/-! ## Inventory builder: paged history scan

`fetch_messages` (script.py lines 95-117) pages through the channel history
newest-first.  Remote history is modelled as the list `remote` of messages in
that newest-first order; an honest remote answers a request carrying
`before last_id` with the messages strictly after the already-fetched
position, so the cursor is modelled by the position `pos` reached so far
(the code treats `last_id` as opaque).  `pageOk k` tells whether the `k`-th
page request returns 200. -/

/-- A message attachment: `{filename, size, url}` (spec §6). -/
structure Att where
  filename : List Char
  size : Nat
  url : List Char
deriving DecidableEq

/-- A remote message: `{id, attachments}` (spec §6). -/
structure Msg where
  id : Nat
  attachments : List Att
deriving DecidableEq

/-- The `while len(messages) < limit` loop of `fetch_messages` (script.py
lines 101-116).  Returns the accumulated messages and the log of
`batch_limit` values requested, one per page request issued. -/
def fetch_messages_go (remote : List Msg) (pageOk : Nat → Bool) (limit : Nat)
    (acc : List Msg) (pos page : Nat) : List Msg × List Nat :=
  if h : acc.length < limit then
    if pageOk page then
      if hb : (remote.drop pos).take (min 100 (limit - acc.length)) = [] then
        (acc, [min 100 (limit - acc.length)])
      else
        ((fetch_messages_go remote pageOk limit
            (acc ++ (remote.drop pos).take (min 100 (limit - acc.length)))
            (pos + ((remote.drop pos).take (min 100 (limit - acc.length))).length)
            (page + 1)).1,
          min 100 (limit - acc.length) ::
            (fetch_messages_go remote pageOk limit
              (acc ++ (remote.drop pos).take (min 100 (limit - acc.length)))
              (pos + ((remote.drop pos).take (min 100 (limit - acc.length))).length)
              (page + 1)).2)
    else (acc, [min 100 (limit - acc.length)])
  else (acc, [])
termination_by limit - acc.length
decreasing_by
  have hlen : 0 < ((remote.drop pos).take (min 100 (limit - acc.length))).length :=
    List.length_pos.mpr hb
  simp only [List.length_append]
  omega

/-- A whole `fetch_messages` call: empty accumulator, position 0, first
page; the result is truncated to `limit` (script.py line 117). -/
def fetch_messages_run (remote : List Msg) (pageOk : Nat → Bool) (limit : Nat) :
    List Msg × List Nat :=
  ((fetch_messages_go remote pageOk limit [] 0 0).1.take limit,
    (fetch_messages_go remote pageOk limit [] 0 0).2)

lemma fetch_go_stop {remote : List Msg} {pageOk : Nat → Bool} {limit : Nat}
    {acc : List Msg} {pos page : Nat} (h : ¬ acc.length < limit) :
    fetch_messages_go remote pageOk limit acc pos page = (acc, []) := by
  rw [fetch_messages_go, dif_neg h]

lemma fetch_go_pageErr {remote : List Msg} {pageOk : Nat → Bool} {limit : Nat}
    {acc : List Msg} {pos page : Nat} (h : acc.length < limit)
    (hp : pageOk page = false) :
    fetch_messages_go remote pageOk limit acc pos page =
      (acc, [min 100 (limit - acc.length)]) := by
  rw [fetch_messages_go, dif_pos h, if_neg (by rw [hp]; exact Bool.false_ne_true)]

lemma fetch_go_empty {remote : List Msg} {pageOk : Nat → Bool} {limit : Nat}
    {acc : List Msg} {pos page : Nat} (h : acc.length < limit)
    (hp : pageOk page = true)
    (hb : (remote.drop pos).take (min 100 (limit - acc.length)) = []) :
    fetch_messages_go remote pageOk limit acc pos page =
      (acc, [min 100 (limit - acc.length)]) := by
  rw [fetch_messages_go, dif_pos h, if_pos hp, dif_pos hb]

lemma fetch_go_step {remote : List Msg} {pageOk : Nat → Bool} {limit : Nat}
    {acc : List Msg} {pos page : Nat} (h : acc.length < limit)
    (hp : pageOk page = true)
    (hb : (remote.drop pos).take (min 100 (limit - acc.length)) ≠ []) :
    fetch_messages_go remote pageOk limit acc pos page =
      ((fetch_messages_go remote pageOk limit
          (acc ++ (remote.drop pos).take (min 100 (limit - acc.length)))
          (pos + ((remote.drop pos).take (min 100 (limit - acc.length))).length)
          (page + 1)).1,
        min 100 (limit - acc.length) ::
          (fetch_messages_go remote pageOk limit
            (acc ++ (remote.drop pos).take (min 100 (limit - acc.length)))
            (pos + ((remote.drop pos).take (min 100 (limit - acc.length))).length)
            (page + 1)).2) := by
  rw [fetch_messages_go, dif_pos h, if_pos hp, dif_neg hb]

/-- Invariant of the paging loop: started at a prefix of the history, it
always returns a prefix of the history, and when every page succeeds it only
stops at `limit` messages or at the end of the history. -/
lemma fetch_go_spec (remote : List Msg) (pageOk : Nat → Bool) (limit : Nat) :
    ∀ fuel pos page, limit - pos ≤ fuel → pos ≤ remote.length →
      ∃ m, pos ≤ m ∧ m ≤ remote.length ∧
        (fetch_messages_go remote pageOk limit (remote.take pos) pos page).1 =
          remote.take m ∧
        ((∀ p, pageOk p = true) → limit ≤ m ∨ remote.length ≤ m) := by
  intro fuel
  induction fuel with
  | zero =>
    intro pos page hf hpos
    have hacc : (remote.take pos).length = pos := by
      rw [List.length_take]
      omega
    have hstop : ¬ (remote.take pos).length < limit := by omega
    rw [fetch_go_stop hstop]
    exact ⟨pos, le_rfl, hpos, rfl, fun _ => Or.inl (by omega)⟩
  | succ n ih =>
    intro pos page hf hpos
    have hacc : (remote.take pos).length = pos := by
      rw [List.length_take]
      omega
    by_cases hlt : (remote.take pos).length < limit
    · rcases hpage : pageOk page with _ | _
      · rw [fetch_go_pageErr hlt hpage]
        refine ⟨pos, le_rfl, hpos, rfl, fun hall => ?_⟩
        rw [hall page] at hpage
        cases hpage
      · by_cases hb : (remote.drop pos).take (min 100 (limit - (remote.take pos).length)) = []
        · rw [fetch_go_empty hlt hpage hb]
          refine ⟨pos, le_rfl, hpos, rfl, fun _ => Or.inr ?_⟩
          have hbl : 0 < min 100 (limit - (remote.take pos).length) := by omega
          have hdrop : remote.drop pos = [] := by
            by_contra hne
            have h1 : 0 < (remote.drop pos).length := List.length_pos.mpr hne
            have h2 : 0 < ((remote.drop pos).take
                (min 100 (limit - (remote.take pos).length))).length := by
              rw [List.length_take]
              omega
            rw [hb] at h2
            simp at h2
          have := congrArg List.length hdrop
          rw [List.length_drop] at this
          simp at this
          omega
        · rw [fetch_go_step hlt hpage hb]
          have hbatch : remote.take pos ++
              (remote.drop pos).take (min 100 (limit - (remote.take pos).length)) =
              remote.take (pos + min 100 (limit - (remote.take pos).length)) := by
            rw [List.take_add]
          have hblen : 0 <
              ((remote.drop pos).take (min 100 (limit - (remote.take pos).length))).length :=
            List.length_pos.mpr hb
          have hblen2 : ((remote.drop pos).take
              (min 100 (limit - (remote.take pos).length))).length =
              min (min 100 (limit - (remote.take pos).length)) (remote.length - pos) := by
            rw [List.length_take, List.length_drop]
          have hpos' : pos + ((remote.drop pos).take
              (min 100 (limit - (remote.take pos).length))).length ≤ remote.length := by
            omega
          have hsame : remote.take (pos + min 100 (limit - (remote.take pos).length)) =
              remote.take (pos + ((remote.drop pos).take
                (min 100 (limit - (remote.take pos).length))).length) := by
            rcases Nat.le_total (pos + min 100 (limit - (remote.take pos).length))
                remote.length with hc | hc
            · congr 1
              omega
            · rw [List.take_of_length_le (by omega), List.take_of_length_le (by omega)]
          rw [hbatch, hsame]
          obtain ⟨m, hm1, hm2, hm3, hm4⟩ := ih
            (pos + ((remote.drop pos).take
              (min 100 (limit - (remote.take pos).length))).length)
            (page + 1) (by omega) hpos'
          exact ⟨m, by omega, hm2, hm3, hm4⟩
    · rw [fetch_go_stop hlt]
      exact ⟨pos, le_rfl, hpos, rfl, fun _ => Or.inl (by omega)⟩

/-- Every page request asks for at most 100 messages. -/
lemma fetch_go_log_le (remote : List Msg) (pageOk : Nat → Bool) (limit : Nat) :
    ∀ fuel acc pos page, limit - acc.length ≤ fuel →
      ∀ bl ∈ (fetch_messages_go remote pageOk limit acc pos page).2, bl ≤ 100 := by
  intro fuel
  induction fuel with
  | zero =>
    intro acc pos page hf
    rw [fetch_go_stop (by omega)]
    simp
  | succ n ih =>
    intro acc pos page hf
    by_cases hlt : acc.length < limit
    · rcases hpage : pageOk page with _ | _
      · rw [fetch_go_pageErr hlt hpage]
        simp
      · by_cases hb : (remote.drop pos).take (min 100 (limit - acc.length)) = []
        · rw [fetch_go_empty hlt hpage hb]
          simp
        · rw [fetch_go_step hlt hpage hb]
          intro bl hbl
          rcases List.mem_cons.mp hbl with rfl | hbl
          · omega
          · have hblen : 0 <
                ((remote.drop pos).take (min 100 (limit - acc.length))).length :=
              List.length_pos.mpr hb
            exact ih _ _ (page + 1) (by simp only [List.length_append]; omega) bl hbl
    · rw [fetch_go_stop hlt]
      simp

/-- The messages accumulated after the first `e` page requests of a scan
whose pages all succeed: each page appends the batch
`(remote.drop acc.length).take (min 100 (limit - acc.length))` delivered by
the honest remote at the position reached so far, and the accumulation stops
growing once `limit` messages are held or a batch comes back empty — exactly
the loop body of script.py lines 101-112 with every request answered 200. -/
def scan_state (remote : List Msg) (limit : Nat) : Nat → List Msg
  | 0 => []
  | e + 1 =>
    if (scan_state remote limit e).length < limit ∧
        (remote.drop (scan_state remote limit e).length).take
          (min 100 (limit - (scan_state remote limit e).length)) ≠ [] then
      scan_state remote limit e ++
        (remote.drop (scan_state remote limit e).length).take
          (min 100 (limit - (scan_state remote limit e).length))
    else scan_state remote limit e

lemma take_length_take {α : Type} (l : List α) (n : Nat) :
    l.take ((l.take n).length) = l.take n := by
  rw [List.length_take]
  rcases Nat.le_total n l.length with h | h
  · rw [Nat.min_eq_left h]
  · rw [Nat.min_eq_right h, List.take_of_length_le le_rfl, List.take_of_length_le h]

/-- The accumulation is always the prefix of history of its own length. -/
lemma scan_state_take (remote : List Msg) (limit : Nat) :
    ∀ e, scan_state remote limit e =
      remote.take (scan_state remote limit e).length := by
  intro e
  induction e with
  | zero => rfl
  | succ e ih =>
    rw [scan_state]
    by_cases h : (scan_state remote limit e).length < limit ∧
        (remote.drop (scan_state remote limit e).length).take
          (min 100 (limit - (scan_state remote limit e).length)) ≠ []
    · rw [if_pos h]
      simp only [List.length_append]
      rw [List.take_add, take_length_take, ← ih]
    · rw [if_neg h]
      exact ih

/-- The accumulation never exceeds `limit` messages. -/
lemma scan_state_length_le (remote : List Msg) (limit : Nat) :
    ∀ e, (scan_state remote limit e).length ≤ limit := by
  intro e
  induction e with
  | zero => simp [scan_state]
  | succ e ih =>
    rw [scan_state]
    by_cases h : (scan_state remote limit e).length < limit ∧
        (remote.drop (scan_state remote limit e).length).take
          (min 100 (limit - (scan_state remote limit e).length)) ≠ []
    · rw [if_pos h]
      rw [List.length_append, List.length_take]
      omega
    · rw [if_neg h]
      exact ih

/-- Once one page leaves the accumulation unchanged, so does every later
page. -/
lemma scan_state_stable (remote : List Msg) (limit : Nat) (j : Nat)
    (h : scan_state remote limit (j + 1) = scan_state remote limit j) :
    ∀ d, scan_state remote limit (j + d) = scan_state remote limit j := by
  intro d
  induction d with
  | zero => rfl
  | succ d ih =>
    have hstep : j + (d + 1) = (j + d) + 1 := rfl
    rw [hstep, scan_state, ih]
    rw [scan_state] at h
    exact h

/-- If the first `e` pages succeed and page `e` fails, the loop — started at
the state reached after `j ≤ e` successful pages — ends with exactly the
accumulation of the successful pages before the failure, issuing at most
`e + 1 - j` further page requests. -/
lemma fetch_go_first_err (remote : List Msg) (pageOk : Nat → Bool) (limit e : Nat)
    (hok : ∀ p < e, pageOk p = true) (herr : pageOk e = false) :
    ∀ fuel j, e + 1 - j ≤ fuel → j ≤ e →
      (fetch_messages_go remote pageOk limit (scan_state remote limit j)
          (scan_state remote limit j).length j).1 = scan_state remote limit e ∧
      (fetch_messages_go remote pageOk limit (scan_state remote limit j)
          (scan_state remote limit j).length j).2.length ≤ e + 1 - j := by
  intro fuel
  induction fuel with
  | zero => intro j hf hj; omega
  | succ n ih =>
    intro j hf hj
    by_cases hlt : (scan_state remote limit j).length < limit
    · rcases Nat.lt_or_ge j e with hje | hje
      · -- a successful page strictly before the failure
        have hpj : pageOk j = true := hok j hje
        by_cases hb : (remote.drop (scan_state remote limit j).length).take
            (min 100 (limit - (scan_state remote limit j).length)) = []
        · rw [fetch_go_empty hlt hpj hb]
          have hfix : scan_state remote limit (j + 1) = scan_state remote limit j := by
            rw [scan_state, if_neg (by tauto)]
          have hall := scan_state_stable remote limit j hfix (e - j)
          rw [show j + (e - j) = e by omega] at hall
          refine ⟨hall.symm, ?_⟩
          dsimp only
          simp only [List.length_cons, List.length_nil]
          omega
        · rw [fetch_go_step hlt hpj hb]
          have hnext : scan_state remote limit (j + 1) =
              scan_state remote limit j ++
                (remote.drop (scan_state remote limit j).length).take
                  (min 100 (limit - (scan_state remote limit j).length)) := by
            rw [scan_state, if_pos ⟨hlt, hb⟩]
          have hlen : (scan_state remote limit (j + 1)).length =
              (scan_state remote limit j).length +
                ((remote.drop (scan_state remote limit j).length).take
                  (min 100 (limit - (scan_state remote limit j).length))).length := by
            rw [hnext, List.length_append]
          rw [← hnext, ← hlen]
          obtain ⟨ha, hb2⟩ := ih (j + 1) (by omega) (by omega)
          refine ⟨ha, ?_⟩
          dsimp only
          simp only [List.length_cons]
          omega
      · -- j = e: the failing page is requested and the loop returns
        have hje2 : j = e := by omega
        subst hje2
        rw [fetch_go_pageErr hlt herr]
        refine ⟨rfl, ?_⟩
        dsimp only
        simp only [List.length_cons, List.length_nil]
        omega
    · -- the limit was already reached: the loop stops without a request
      rw [fetch_go_stop hlt]
      have hfix : scan_state remote limit (j + 1) = scan_state remote limit j := by
        rw [scan_state, if_neg (by tauto)]
      have hall := scan_state_stable remote limit j hfix (e - j)
      rw [show j + (e - j) = e by omega] at hall
      refine ⟨hall.symm, ?_⟩
      dsimp only
      simp

/-- C7: the inventory scan returns at most `scanLimit` messages, always a
prefix of the (newest-first) remote history; every page request asks for at
most 100 messages; when every page returns 200 the scan returns exactly the
first `scanLimit` messages of history (fewer only when history is exhausted
by an empty batch); and when page `e` is the first to fail, the scan stops
paging there — at most `e + 1` page requests ever made — and returns exactly
the accumulation of the batches fetched by the `e` successful pages before
the failure, rather than failing. -/
theorem fetch_messages_paging (remote : List Msg) (pageOk : Nat → Bool) (limit : Nat) :
    (fetch_messages_run remote pageOk limit).1.length ≤ limit ∧
    (∃ k, (fetch_messages_run remote pageOk limit).1 = remote.take k) ∧
    (∀ bl ∈ (fetch_messages_run remote pageOk limit).2, bl ≤ 100) ∧
    ((∀ p, pageOk p = true) →
      (fetch_messages_run remote pageOk limit).1 = remote.take limit) ∧
    (∀ e, (∀ p < e, pageOk p = true) → pageOk e = false →
      (fetch_messages_run remote pageOk limit).1 = scan_state remote limit e ∧
      (fetch_messages_run remote pageOk limit).2.length ≤ e + 1) := by
  obtain ⟨m, hm1, hm2, hm3, hm4⟩ :=
    fetch_go_spec remote pageOk limit limit 0 0 (by omega) (by omega)
  rw [List.take_zero] at hm3
  refine ⟨?_, ⟨min m limit, ?_⟩, ?_, ?_, ?_⟩
  · rw [fetch_messages_run]
    simp only [List.length_take]
    omega
  · rw [fetch_messages_run]
    simp only [hm3, List.take_take]
    rw [Nat.min_comm]
  · intro bl hbl
    exact fetch_go_log_le remote pageOk limit limit [] 0 0 (by simp) bl hbl
  · intro hall
    rw [fetch_messages_run]
    simp only [hm3, List.take_take]
    rcases Nat.le_total limit m with hlm | hlm
    · rw [Nat.min_eq_left hlm]
    · rcases hm4 hall with hc | hc
      · rw [Nat.min_eq_left hc]
      · rw [List.take_of_length_le (by omega), List.take_of_length_le (by omega)]
  · intro e hok herr
    obtain ⟨ha, hb⟩ := fetch_go_first_err remote pageOk limit e hok herr
      (e + 1) 0 (by omega) (by omega)
    simp only [scan_state, List.length_nil] at ha hb
    rw [fetch_messages_run]
    refine ⟨?_, hb⟩
    rw [ha]
    exact List.take_of_length_le (scan_state_length_le remote limit e)

/-- Witness for C7 on a concrete two-message history with `scanLimit = 5`:
when page 0 succeeds and page 1 fails, the scan returns the two messages
page 0 fetched with at most two requests made; when page 0 itself fails, it
returns the empty accumulation; and with all pages succeeding and
`scanLimit = 2` it returns exactly the first two messages. -/
theorem fetch_messages_paging_witness :
    (fetch_messages_run [⟨30, []⟩, ⟨20, []⟩, ⟨10, []⟩] (fun _ => true) 2).1 =
      [⟨30, []⟩, ⟨20, []⟩] ∧
    (fetch_messages_run [⟨30, []⟩, ⟨20, []⟩] (fun p => decide (p < 1)) 5).1 =
      [⟨30, []⟩, ⟨20, []⟩] ∧
    (fetch_messages_run [⟨30, []⟩, ⟨20, []⟩] (fun p => decide (p < 1)) 5).2.length ≤ 2 ∧
    (fetch_messages_run [⟨30, []⟩, ⟨20, []⟩] (fun _ => false) 5).1 = [] := by
  have hall := (fetch_messages_paging [⟨30, []⟩, ⟨20, []⟩, ⟨10, []⟩]
    (fun _ => true) 2).2.2.2.1 (fun _ => rfl)
  have herr1 := (fetch_messages_paging [⟨30, []⟩, ⟨20, []⟩]
    (fun p => decide (p < 1)) 5).2.2.2.2 1
    (fun p hp => decide_eq_true hp) rfl
  have herr0 := (fetch_messages_paging [⟨30, []⟩, ⟨20, []⟩]
    (fun _ => false) 5).2.2.2.2 0 (fun p hp => absurd hp (by omega)) rfl
  refine ⟨by rw [hall]; rfl, ?_, herr1.2, ?_⟩
  · rw [herr1.1]
    decide
  · rw [herr0.1]
    rfl

/-! ## Inventory aggregation

`list_files` (script.py lines 129-136) walks the scanned messages and, per
attachment, strips the part suffix and accumulates a part count
(`files_map`) and a size total (`files_size`) per base name. -/

/-- The attachments of `msgs` grouped under base name `b`: those whose
stripped filename equals `b`, in scan order. -/
def located_atts (msgs : List Msg) (b : List Char) : List Att :=
  (msgs.map (fun m => m.attachments.filter
    (fun a => decide (clean_filename_part a.filename = b)))).flatten

/-- `files_map[b]` after the scan: the number of parts grouped under `b`
(present in the dict exactly when this is positive). -/
def inv_count (msgs : List Msg) (b : List Char) : Nat :=
  (located_atts msgs b).length

/-- `files_size[b]` after the scan: the total attachment size under `b`. -/
def inv_size (msgs : List Msg) (b : List Char) : Nat :=
  ((located_atts msgs b).map Att.size).sum

lemma located_atts_append (xs ys : List Msg) (b : List Char) :
    located_atts (xs ++ ys) b = located_atts xs b ++ located_atts ys b := by
  simp [located_atts]

/-- With every page succeeding, the scan returns exactly the first `limit`
messages of history. -/
lemma fetch_all_ok (remote : List Msg) (limit : Nat) :
    (fetch_messages_run remote (fun _ => true) limit).1 = remote.take limit := by
  obtain ⟨m, hm1, hm2, hm3, hm4⟩ :=
    fetch_go_spec remote (fun _ => true) limit limit 0 0 (by omega) (by omega)
  rw [List.take_zero] at hm3
  rw [fetch_messages_run]
  simp only [hm3, List.take_take]
  rcases Nat.le_total limit m with hlm | hlm
  · rw [Nat.min_eq_left hlm]
  · rcases hm4 (fun _ => rfl) with hc | hc
    · rw [Nat.min_eq_left hc]
    · rw [List.take_of_length_le (by omega), List.take_of_length_le (by omega)]

/-- C8: on a fixed history with all pages succeeding, a scan bounded by `L1`
returns exactly the first `L1` messages (consistent with the scanned prefix,
no error), and for `L1 ≤ L2` every base name found at limit `L1` is still
found at limit `L2` with at least as many parts and at least as much total
size: raising the limit only adds or completes files. -/
theorem inventory_monotone (remote : List Msg) (L1 L2 : Nat) (h12 : L1 ≤ L2)
    (b : List Char) :
    (fetch_messages_run remote (fun _ => true) L1).1 = remote.take L1 ∧
    (0 < inv_count (fetch_messages_run remote (fun _ => true) L1).1 b →
      0 < inv_count (fetch_messages_run remote (fun _ => true) L2).1 b) ∧
    inv_count (fetch_messages_run remote (fun _ => true) L1).1 b ≤
      inv_count (fetch_messages_run remote (fun _ => true) L2).1 b ∧
    inv_size (fetch_messages_run remote (fun _ => true) L1).1 b ≤
      inv_size (fetch_messages_run remote (fun _ => true) L2).1 b := by
  have hf1 := fetch_all_ok remote L1
  have hf2 := fetch_all_ok remote L2
  have hsplit : remote.take L2 = remote.take L1 ++ (remote.drop L1).take (L2 - L1) := by
    rw [← List.take_add]
    congr 1
    omega
  have hcount : inv_count (remote.take L1) b ≤ inv_count (remote.take L2) b := by
    rw [hsplit, inv_count, inv_count, located_atts_append, List.length_append]
    exact Nat.le_add_right _ _
  have hsize : inv_size (remote.take L1) b ≤ inv_size (remote.take L2) b := by
    rw [hsplit, inv_size, inv_size, located_atts_append, List.map_append,
      List.sum_append]
    exact Nat.le_add_right _ _
  rw [hf1, hf2]
  exact ⟨rfl, fun h => Nat.lt_of_lt_of_le h hcount, hcount, hsize⟩

/-- A two-message history, one part of file `f` in each message. -/
def remoteA : List Msg :=
  [⟨20, [⟨['f', '.', 'p', 'a', 'r', 't', '1'], 3, ['u']⟩]⟩,
   ⟨10, [⟨['f', '.', 'p', 'a', 'r', 't', '2'], 4, ['v']⟩]⟩]

/-- Witness for C8 on `remoteA` with limits 1 ≤ 2: the limit-1 scan is the
first message, and count and size for `f` grow from (1, 3) to (2, 7). -/
theorem inventory_monotone_witness :
    (fetch_messages_run remoteA (fun _ => true) 1).1 = remoteA.take 1 ∧
    inv_count (fetch_messages_run remoteA (fun _ => true) 1).1 ['f'] ≤
      inv_count (fetch_messages_run remoteA (fun _ => true) 2).1 ['f'] ∧
    inv_count (remoteA.take 1) ['f'] = 1 ∧
    inv_count (remoteA.take 2) ['f'] = 2 ∧
    inv_size (remoteA.take 2) ['f'] = 7 := by
  have h := inventory_monotone remoteA 1 2 (by omega) ['f']
  exact ⟨h.1, h.2.2.1, by decide, by decide, by decide⟩

/-! ## Download

`download_file` (script.py lines 147-171) collects `(filename, url)` pairs
of the parts whose stripped name matches, sorts them by extracted index
(missing index sorts as 0), opens the local file `file_name` in `"wb"` mode
— creating or truncating it — and then fetches each part in order, appending
each 200 body and returning on the first non-200. -/

/-- Result of fetching one part URL (script.py lines 162-169). -/
inductive FetchRes where
  | ok (bytes : List Byte)
  | err (status : Nat) (body : List Char)

/-- The located parts of `file_name` as `(filename, url)` pairs in scan
order (script.py lines 150-154). -/
def locate_parts (msgs : List Msg) (fileName : List Char) :
    List (List Char × List Char) :=
  (msgs.map (fun m => (m.attachments.filter
    (fun a => decide (clean_filename_part a.filename = fileName))).map
      (fun a => (a.filename, a.url)))).flatten

/-- The comparison underlying `parts.sort(key=...)` (script.py line 158):
ascending `part_sort_key` of the part filename. -/
def part_le (p q : List Char × List Char) : Prop :=
  part_sort_key p.1 ≤ part_sort_key q.1

instance : DecidableRel part_le := fun _ _ => Nat.decLe _ _

instance : IsTotal (List Char × List Char) part_le :=
  ⟨fun _ _ => Nat.le_total _ _⟩

instance : IsTrans (List Char × List Char) part_le :=
  ⟨fun _ _ _ => Nat.le_trans⟩

/-- The sort of script.py line 158, modelled by a stable ascending
insertion sort on the key (Python's `list.sort` is likewise stable). -/
def sort_parts (parts : List (List Char × List Char)) :
    List (List Char × List Char) :=
  List.insertionSort part_le parts

/-- Whether the fetch of a part's URL returns 200. -/
def part_fetch_ok (fetch : List Char → FetchRes) (p : List Char × List Char) : Bool :=
  match fetch p.2 with
  | .ok _ => true
  | .err _ _ => false

/-- The body fetched for a part (meaningful when the fetch succeeded). -/
def part_bytes (fetch : List Char → FetchRes) (p : List Char × List Char) : List Byte :=
  match fetch p.2 with
  | .ok bs => bs
  | .err _ _ => []

/-- The fetch-and-append loop of `download_file` (script.py lines 160-170):
sequential over the sorted parts; a 200 body is written and the loop
continues; the first non-200 reports and returns.  Returns the bytes
written to the file and whether the loop completed. -/
def download_write (fetch : List Char → FetchRes) :
    List (List Char × List Char) → List Byte × Bool
  | [] => ([], true)
  | p :: rest =>
    match fetch p.2 with
    | .ok bs =>
      (bs ++ (download_write fetch rest).1, (download_write fetch rest).2)
    | .err _ _ => ([], false)

/-- A whole `download_file` call over a local filesystem `fs` (a map from
path to contents): with no part located it prints and leaves `fs` untouched
(script.py lines 155-157); otherwise `open(file_name, "wb")` truncates the
entry at `file_name` before the first fetch and the loop writes into it. -/
def download_file_run (fs : List Char → Option (List Byte))
    (fetch : List Char → FetchRes) (fileName : List Char) (msgs : List Msg) :
    (List Char → Option (List Byte)) × Bool :=
  if locate_parts msgs fileName = [] then (fs, false)
  else
    (fun n => if n = fileName then
        some (download_write fetch (sort_parts (locate_parts msgs fileName))).1
      else fs n,
      (download_write fetch (sort_parts (locate_parts msgs fileName))).2)

/-- The written bytes are exactly the concatenation, in sorted order, of the
bodies of the parts before the first failing fetch; the loop completes
exactly when every fetch succeeds. -/
lemma download_write_spec (fetch : List Char → FetchRes)
    (l : List (List Char × List Char)) :
    download_write fetch l =
      (((l.takeWhile (part_fetch_ok fetch)).map (part_bytes fetch)).flatten,
        l.all (part_fetch_ok fetch)) := by
  induction l with
  | nil => rfl
  | cons p rest ih =>
    rw [download_write]
    cases hf : fetch p.2 with
    | ok bs =>
      have hok : part_fetch_ok fetch p = true := by rw [part_fetch_ok, hf]
      have hbs : part_bytes fetch p = bs := by rw [part_bytes, hf]
      simp [List.takeWhile_cons, List.all_cons, hok, hbs, ih]
    | err s b =>
      have hok : part_fetch_ok fetch p = false := by rw [part_fetch_ok, hf]
      simp [List.takeWhile_cons, List.all_cons, hok]

/-- C5: for a download that locates at least one part, the fetched sequence
is a permutation of the located parts, sorted ascending by extracted index
(`part_sort_key`, which is 0 for a part with no parseable index, so such
parts sort first); the parts are fetched sequentially in that order and the
bytes appended to the sink are—when a fetch fails—exactly the bodies of the
parts strictly before the first failure, the download completing only when
every fetch returned 200. -/
theorem download_ordering (msgs : List Msg) (fetch : List Char → FetchRes)
    (fileName : List Char) (hne : locate_parts msgs fileName ≠ []) :
    (sort_parts (locate_parts msgs fileName)).Perm (locate_parts msgs fileName) ∧
    List.Sorted part_le (sort_parts (locate_parts msgs fileName)) ∧
    download_write fetch (sort_parts (locate_parts msgs fileName)) =
      ((((sort_parts (locate_parts msgs fileName)).takeWhile
          (part_fetch_ok fetch)).map (part_bytes fetch)).flatten,
        (sort_parts (locate_parts msgs fileName)).all (part_fetch_ok fetch)) :=
  ⟨List.perm_insertionSort part_le _,
   List.sorted_insertionSort part_le _,
   download_write_spec fetch _⟩

/-- A history holding two parts of `f`, scanned out of order: `f.part2`
(bytes via `v`) appears before `f.part1` (bytes via `u`). -/
def msgsB : List Msg :=
  [⟨20, [⟨['f', '.', 'p', 'a', 'r', 't', '2'], 1, ['v']⟩]⟩,
   ⟨10, [⟨['f', '.', 'p', 'a', 'r', 't', '1'], 1, ['u']⟩]⟩]

/-- Fetch results for `msgsB`: `u` holds byte 1, `v` holds byte 2. -/
def fetchB : List Char → FetchRes :=
  fun url => if url = ['u'] then .ok [1] else .ok [2]

/-- Witness for C5 on `msgsB`: the parts are re-sorted to `part1, part2`
order and the downloaded bytes are `[1, 2]` with a completed loop. -/
theorem download_ordering_witness :
    sort_parts (locate_parts msgsB ['f']) =
      [(['f', '.', 'p', 'a', 'r', 't', '1'], ['u']),
       (['f', '.', 'p', 'a', 'r', 't', '2'], ['v'])] ∧
    download_write fetchB (sort_parts (locate_parts msgsB ['f'])) = ([1, 2], true) := by
  have h := (download_ordering msgsB fetchB ['f'] (by decide)).2.2
  exact ⟨by decide, by rw [h]; decide⟩

/-- C10: a download that locates at least one part writes to the path equal
to the requested base name: that filesystem entry is replaced by exactly the
downloaded bytes (any pre-existing file is overwritten), every other path is
untouched, and because `open(file_name, "wb")` truncates before the first
fetch, a download whose very first fetch fails still leaves the entry
truncated to the empty file. -/
theorem download_sink (fs : List Char → Option (List Byte))
    (fetch : List Char → FetchRes) (fileName : List Char) (msgs : List Msg)
    (hne : locate_parts msgs fileName ≠ []) :
    (download_file_run fs fetch fileName msgs).1 fileName =
      some (download_write fetch (sort_parts (locate_parts msgs fileName))).1 ∧
    (∀ n, n ≠ fileName → (download_file_run fs fetch fileName msgs).1 n = fs n) ∧
    (∀ p rest, sort_parts (locate_parts msgs fileName) = p :: rest →
      part_fetch_ok fetch p = false →
      (download_file_run fs fetch fileName msgs).1 fileName = some []) := by
  rw [download_file_run, if_neg hne]
  refine ⟨by simp, fun n hn => by simp [hn], ?_⟩
  intro p rest hsort hfail
  rw [download_write_spec, hsort]
  simp [List.takeWhile_cons, hfail]

/-- A filesystem with pre-existing files at `f` and `g`. -/
def fsC : List Char → Option (List Byte) :=
  fun n => if n = ['f'] then some [9, 9] else if n = ['g'] then some [5] else none

/-- Fetch results that fail immediately with a 404. -/
def fetch404 : List Char → FetchRes := fun _ => .err 404 []

/-- Witness for C10 on `msgsB` over `fsC` with every fetch failing: the
pre-existing two-byte file at `f` is truncated to empty even though the
download aborts on its first fetch, and the unrelated file `g` is intact. -/
theorem download_sink_witness :
    (download_file_run fsC fetch404 ['f'] msgsB).1 ['f'] = some [] ∧
    (download_file_run fsC fetch404 ['f'] msgsB).1 ['g'] = some [5] ∧
    fsC ['f'] = some [9, 9] := by
  have h := download_sink fsC fetch404 ['f'] msgsB (by decide)
  refine ⟨?_, ?_, by decide⟩
  · exact h.2.2 (['f', '.', 'p', 'a', 'r', 't', '1'], ['u'])
      [(['f', '.', 'p', 'a', 'r', 't', '2'], ['v'])] (by decide) (by decide)
  · rw [h.2.1 ['g'] (by decide)]
    decide

end DiscDrive
